import Mathlib

/-!
Shallow embedding of the compiled-code management subsystem of
js/src/wasm/WasmCode.h: CodeSegment, FuncToCodeRangeMap, CodeBlock,
ThreadSafeCodeBlockMap, JumpTables and the tier-2 publication protocol,
together with proofs of the stated properties.

Machine addresses and sizes are modelled as natural numbers; nullable
pointers as `Option`; the two backing vectors of the concurrent map as
lists.  Lock acquisitions and the pointer swap are recorded as explicit
events so that statements about which locks an operation takes are
statements about the embedded code.
-/

namespace WasmCode

/-! ## CodeBlock (the fields the claims depend on) -/

/-- The sentinel `BAD_CODE_RANGE = UINT32_MAX` for unfilled slots of a
`FuncToCodeRangeMap`. -/
def BAD_CODE_RANGE : Nat := 2 ^ 32 - 1

/-- Embeds `FuncToCodeRangeMap`: a dense array offset by `startFuncIndex_`,
mapping function index to an index into a block's code ranges. -/
structure FuncToCodeRangeMap where
  startFuncIndex : Nat
  funcToCodeRange : List Nat
deriving DecidableEq, Repr, Inhabited

/-- Embeds `FuncToCodeRangeMap::denseHasFuncIndex`. -/
def FuncToCodeRangeMap.denseHasFuncIndex (m : FuncToCodeRangeMap) (funcIndex : Nat) : Bool :=
  decide (funcIndex ≥ m.startFuncIndex) &&
  decide (funcIndex - m.startFuncIndex < m.funcToCodeRange.length)

/-- Embeds `FuncToCodeRangeMap::createDense`: `numFuncs` slots, all filled with the
`BAD_CODE_RANGE` sentinel. -/
def FuncToCodeRangeMap.createDense (startFuncIndex numFuncs : Nat) : FuncToCodeRangeMap :=
  { startFuncIndex := startFuncIndex
    funcToCodeRange := List.replicate numFuncs BAD_CODE_RANGE }

/-- Embeds `FuncToCodeRangeMap::lookup`. -/
def FuncToCodeRangeMap.lookup (m : FuncToCodeRangeMap) (funcIndex : Nat) : Nat :=
  if m.denseHasFuncIndex funcIndex then
    m.funcToCodeRange.getD (funcIndex - m.startFuncIndex) 0
  else
    BAD_CODE_RANGE

/-- Embeds `FuncToCodeRangeMap::insert`. -/
def FuncToCodeRangeMap.insert (m : FuncToCodeRangeMap) (funcIndex codeRangeIndex : Nat) :
    Bool × FuncToCodeRangeMap :=
  if m.denseHasFuncIndex funcIndex then
    (true, { m with
      funcToCodeRange := m.funcToCodeRange.set (funcIndex - m.startFuncIndex) codeRangeIndex })
  else
    (false, m)

/-- The predicate checked by `FuncToCodeRangeMap::assertAllInitialized`:
no slot still holds the `BAD_CODE_RANGE` sentinel. -/
def FuncToCodeRangeMap.allInitialized (m : FuncToCodeRangeMap) : Bool :=
  m.funcToCodeRange.all (fun codeRangeIndex => decide (codeRangeIndex ≠ BAD_CODE_RANGE))

/-- The fields of `CodeBlock` that the verified properties depend on: the
weak back-reference to the owning `Code` (null until `initialize`), the
code sub-range `[codeBase, codeBase + codeLength)` and the
function-to-code-range map. -/
structure CodeBlock where
  code : Option Nat
  codeBase : Nat
  codeLength : Nat
  funcToCodeRange : FuncToCodeRangeMap
deriving DecidableEq, Repr, Inhabited

/-- Embeds `CodeBlock::base`. -/
def CodeBlock.base (cb : CodeBlock) : Nat := cb.codeBase

/-- Embeds `CodeBlock::length`. -/
def CodeBlock.length (cb : CodeBlock) : Nat := cb.codeLength

/-- Embeds `CodeBlock::containsCodePC`: `pc >= base() && pc < base() + length()`. -/
def CodeBlock.containsCodePC (cb : CodeBlock) (pc : Nat) : Bool :=
  decide (pc ≥ cb.base) && decide (pc < cb.base + cb.length)

/-! ## mozilla::BinarySearchIf and the ThreadSafeCodeBlockMap -/

/-- Embeds `mozilla::BinarySearchIf` over `[low, high)`: returns `(true, i)` when the
comparator is zero at `i`, otherwise `(false, insertionPoint)`.  Elements are
read with `getD` against a default, mirroring unchecked indexing. -/
def binarySearchIf {α : Type} (c : List α) (d : α) (cmp : α → Int) (low high : Nat) :
    Bool × Nat :=
  if h : low < high then
    if cmp (c.getD (low + (high - low) / 2) d) = 0 then
      (true, low + (high - low) / 2)
    else if cmp (c.getD (low + (high - low) / 2) d) < 0 then
      binarySearchIf c d cmp low (low + (high - low) / 2)
    else
      binarySearchIf c d cmp (low + (high - low) / 2 + 1) high
  else
    (false, low)
termination_by high - low
decreasing_by
  · omega
  · omega

/-- Embeds `ThreadSafeCodeBlockMap::CodeBlockPC`: the comparator used for all
searches of the map, keyed on a program counter. -/
def codeBlockPCCmp (pc : Nat) (cb : CodeBlock) : Int :=
  if cb.containsCodePC pc then 0
  else if pc < cb.base then -1
  else 1

/-- Shared-memory actions of the map's operations, recorded so that lock
usage is part of the model. -/
inductive MapEvent
  | lockMutators
  | unlockMutators
  | incActiveLookups
  | decActiveLookups
  | swapReadonly
deriving DecidableEq, Repr

/-- The two backing arrays of `ThreadSafeCodeBlockMap`: the writer's private
vector and the published read-only vector. -/
structure ThreadSafeCodeBlockMap where
  mutableCodeBlocks : List CodeBlock
  readonlyCodeBlocks : List CodeBlock
deriving DecidableEq, Repr

/-- What `ThreadSafeCodeBlockMap::lookup` produces: the found block (or
null), the value stored through the optional `codeRange` out-parameter
(`none` when the caller passed no out-parameter), and the events
performed. -/
structure LookupResult where
  block : Option CodeBlock
  codeRangeOut : Option (Option Nat)
  events : List MapEvent
deriving DecidableEq, Repr

/-- Embeds `ThreadSafeCodeBlockMap::lookup`: bump the active-lookup count, snapshot
the read-only vector, binary-search it with `CodeBlockPC`, drop the count.
`lookupRange` stands for `CodeBlock::lookupRange`, used only on a hit. -/
def ThreadSafeCodeBlockMap.lookup (m : ThreadSafeCodeBlockMap)
    (lookupRange : CodeBlock → Nat → Option Nat) (pc : Nat) (wantCodeRange : Bool) :
    LookupResult :=
  let readonly := m.readonlyCodeBlocks
  match binarySearchIf readonly default (codeBlockPCCmp pc) 0 readonly.length with
  | (false, _) =>
      { block := none
        codeRangeOut := if wantCodeRange then some none else none
        events := [.incActiveLookups, .decActiveLookups] }
  | (true, index) =>
      let result := readonly.getD index default
      { block := some result
        codeRangeOut := if wantCodeRange then some (lookupRange result pc) else none
        events := [.incActiveLookups, .decActiveLookups] }

/-- Vector insertion, `insert(begin() + i, x)` on a `std::vector`. -/
def insertAt {α : Type} (l : List α) (i : Nat) (x : α) : List α :=
  l.take i ++ x :: l.drop i

/-- Vector erasure, `erase(begin() + i)` on a `std::vector`. -/
def eraseAt {α : Type} (l : List α) (i : Nat) : List α :=
  l.take i ++ l.drop (i + 1)

/-- Outcome of `ThreadSafeCodeBlockMap::insert`: success, failure with the
map unchanged, or the deliberate OOM crash after the swap. -/
inductive InsertOutcome
  | ok (m : ThreadSafeCodeBlockMap) (events : List MapEvent)
  | fail (m : ThreadSafeCodeBlockMap) (events : List MapEvent)
  | oomCrash
deriving DecidableEq, Repr

/-- Embeds `ThreadSafeCodeBlockMap::insert`: under the mutators mutex, find the
insertion index in the private vector, insert there (allocation may fail:
`alloc1`), swap the published and private pointers, wait for lookups to
drain, then repeat the identical insertion at the same index in the new
private vector (allocation failure there — `alloc2` — crashes). -/
def ThreadSafeCodeBlockMap.insert (m : ThreadSafeCodeBlockMap) (cs : CodeBlock)
    (alloc1 alloc2 : Bool) : InsertOutcome :=
  let index := (binarySearchIf m.mutableCodeBlocks default (codeBlockPCCmp cs.base)
      0 m.mutableCodeBlocks.length).2
  if alloc1 = false then
    .fail m [.lockMutators, .unlockMutators]
  else
    let afterSwap : ThreadSafeCodeBlockMap :=
      { mutableCodeBlocks := m.readonlyCodeBlocks
        readonlyCodeBlocks := insertAt m.mutableCodeBlocks index cs }
    if alloc2 = false then
      .oomCrash
    else
      .ok { afterSwap with mutableCodeBlocks := insertAt afterSwap.mutableCodeBlocks index cs }
        [.lockMutators, .swapReadonly, .unlockMutators]

/-- Embeds `ThreadSafeCodeBlockMap::remove`: find the block by its base address,
erase it from the private vector, swap and wait, then erase at the same
index in the new private vector; returns the new block count. -/
def ThreadSafeCodeBlockMap.remove (m : ThreadSafeCodeBlockMap) (cs : CodeBlock) :
    ThreadSafeCodeBlockMap × Nat × List MapEvent :=
  let index := (binarySearchIf m.mutableCodeBlocks default (codeBlockPCCmp cs.base)
      0 m.mutableCodeBlocks.length).2
  let newMutable := eraseAt m.mutableCodeBlocks index
  let afterSwap : ThreadSafeCodeBlockMap :=
    { mutableCodeBlocks := m.readonlyCodeBlocks
      readonlyCodeBlocks := newMutable }
  ({ afterSwap with mutableCodeBlocks := eraseAt afterSwap.mutableCodeBlocks index },
   newMutable.length, [.lockMutators, .swapReadonly, .unlockMutators])

/-! ## JumpTables -/

/-- The compile mode of a `Code` (from WasmCompileArgs.h; only the `Tier1`
test matters here). -/
inductive CompileMode
  | Once
  | Tier1
  | Tier2
deriving DecidableEq, Repr

/-- Embeds `JumpTables`: the tiering table and the jit-entry table, both indexed by
function index; `none` is a null slot.  `jitBaseAddress` is the address of
`&jit_[0]` in pointer-sized units, used by the reverse mapping. -/
structure JumpTables where
  mode : CompileMode
  tiering : List (Option Nat)
  jit : List (Option Nat)
  jitBaseAddress : Nat
  numFuncs : Nat
deriving DecidableEq, Repr

/-- Embeds `JumpTables::setJitEntry`: an unconditional store to the jit-entry
table. -/
def JumpTables.setJitEntry (jt : JumpTables) (i : Nat) (target : Option Nat) : JumpTables :=
  { jt with jit := jt.jit.set i target }

/-- Embeds `JumpTables::setJitEntryIfNull`: compare-and-swap from null; the store
happens only when the slot currently holds null. -/
def JumpTables.setJitEntryIfNull (jt : JumpTables) (i : Nat) (target : Option Nat) : JumpTables :=
  if jt.jit.getD i none = none then { jt with jit := jt.jit.set i target } else jt

/-- Embeds `JumpTables::getAddressOfJitEntry`: `&jit_[i]`. -/
def JumpTables.getAddressOfJitEntry (jt : JumpTables) (i : Nat) : Nat :=
  jt.jitBaseAddress + i

/-- Embeds `JumpTables::funcIndexFromJitEntry`: pointer difference
`(intptr_t*)target - (intptr_t*)&jit_[0]`. -/
def JumpTables.funcIndexFromJitEntry (jt : JumpTables) (target : Nat) : Nat :=
  target - jt.jitBaseAddress

/-- Embeds `JumpTables::setTieringEntry`: stores into the tiering table only when
the compile mode is `Tier1`. -/
def JumpTables.setTieringEntry (jt : JumpTables) (i : Nat) (target : Option Nat) : JumpTables :=
  if jt.mode = CompileMode.Tier1 then { jt with tiering := jt.tiering.set i target } else jt

/-- The mutating jump-table operations, for reasoning about arbitrary
sequences of them. -/
inductive JumpTableOp
  | setJitEntry (i : Nat) (target : Option Nat)
  | setJitEntryIfNull (i : Nat) (target : Option Nat)
  | setTieringEntry (i : Nat) (target : Option Nat)
deriving DecidableEq, Repr

/-- Apply one jump-table operation. -/
def JumpTableOp.apply (jt : JumpTables) : JumpTableOp → JumpTables
  | .setJitEntry i target => jt.setJitEntry i target
  | .setJitEntryIfNull i target => jt.setJitEntryIfNull i target
  | .setTieringEntry i target => jt.setTieringEntry i target

/-- Apply a sequence of jump-table operations, first op first. -/
def applyJumpTableOps (jt : JumpTables) (ops : List JumpTableOp) : JumpTables :=
  ops.foldl JumpTableOp.apply jt

/-- Whether an operation is the unconditional jit-entry store. -/
def JumpTableOp.isSetJitEntry : JumpTableOp → Bool
  | .setJitEntry _ _ => true
  | _ => false

/-! ## The tier-2 publication protocol of `Code` -/

/-- The observable pair `(tier2_, hasTier2_)` of a `Code` instance; the
`CodeBlock` payload is abstracted to its address. -/
structure Tier2State where
  tier2 : Option Nat
  hasTier2 : Bool
deriving DecidableEq, Repr

/-- The initial state: `hasTier2_` false, `tier2_` null. -/
def tier2Init : Tier2State := { tier2 := none, hasTier2 := false }

/-- Modelled from the spec: the bodies of `Code::finishCompleteTier2` and of
the tier-2 installer live in WasmCode.cpp, which is not among the sources.
Per the spec the only transitions of `(tier2_, hasTier2_)` are: the tier-2
compiler thread makes `tier2_` non-null while `hasTier2_` is still false
(Absent to Building), and the same thread later performs the single atomic
store setting `hasTier2_` to true (Building to Published). -/
inductive Tier2Step : Tier2State → Tier2State → Prop
  | install (b : Nat) :
      Tier2Step { tier2 := none, hasTier2 := false } { tier2 := some b, hasTier2 := false }
  | publish (b : Nat) :
      Tier2Step { tier2 := some b, hasTier2 := false } { tier2 := some b, hasTier2 := true }

/-- Zero or more protocol steps. -/
def Tier2Reach : Tier2State → Tier2State → Prop :=
  Relation.ReflTransGen Tier2Step

/-- The rank of a protocol state: Absent 0, Building 1, Published 2. -/
def Tier2State.rank (s : Tier2State) : Nat :=
  if s.hasTier2 then 2 else if s.tier2 = none then 0 else 1

/-! ## CodeSegment -/

/-- The mutable allocation state of a `CodeSegment`: its base address, the
bytes used so far and the fixed capacity. -/
structure CodeSegment where
  base : Nat
  lengthBytes : Nat
  capacityBytes : Nat
deriving DecidableEq, Repr

/-- Embeds `CodeSegment::AlignBytesNeeded`: round up to the system page size. -/
def AlignBytesNeeded (pageSize bytes : Nat) : Nat :=
  ((bytes + pageSize - 1) / pageSize) * pageSize

/-- Embeds `CodeSegment::hasSpace`: `bytes <= capacityBytes() && lengthBytes_ <=
capacityBytes() - bytes`, the overflow-free form of "`bytes` more bytes
fit". -/
def CodeSegment.hasSpace (s : CodeSegment) (bytes : Nat) : Bool :=
  decide (bytes ≤ s.capacityBytes) && decide (s.lengthBytes ≤ s.capacityBytes - bytes)

/-- Embeds `CodeSegment::claimSpace`: release-asserts `hasSpace`, hands out
`base() + lengthBytes_` and bumps `lengthBytes_`.  The failed assertion is
modelled as `none`. -/
def CodeSegment.claimSpace (s : CodeSegment) (bytes : Nat) : Option (Nat × CodeSegment) :=
  if s.hasSpace bytes then
    some (s.base + s.lengthBytes, { s with lengthBytes := s.lengthBytes + bytes })
  else
    none

/-- A sequence of claims against one segment, returning the claimed
`(claimedBase, size)` ranges. -/
def claimMany (s : CodeSegment) : List Nat → Option (List (Nat × Nat) × CodeSegment)
  | [] => some ([], s)
  | bytes :: rest =>
    match s.claimSpace bytes with
    | none => none
    | some (claimedBase, s1) =>
      match claimMany s1 rest with
      | none => none
      | some (ranges, s2) => some ((claimedBase, bytes) :: ranges, s2)

/-! ## CodeBlock::initialize -/

/-- Modelled from the spec: the body of `CodeBlock::initialize` lives in
WasmCode.cpp, which is not among the sources.  Per the spec it binds the
weak back-reference to the owning `Code` and asserts the internal
invariants, among them `funcToCodeRange.assertAllInitialized()` (every
function slot filled); a failed assertion is modelled as `none`. -/
def CodeBlock.initialize (cb : CodeBlock) (code : Nat) : Option CodeBlock :=
  if cb.funcToCodeRange.allInitialized then some { cb with code := some code } else none

/-! ## Static linking -/

/-- Embeds `LinkData::InternalLink`: a patch location and its target, both
segment-relative. -/
structure InternalLink where
  patchAtOffset : Nat
  targetOffset : Nat
deriving DecidableEq, Repr

/-- Embeds `LinkData`: the internal links plus, for each symbolic address, the
offsets that reference it. -/
structure LinkData where
  internalLinks : List InternalLink
  symbolicLinks : List (Nat × List Nat)
deriving DecidableEq, Repr

/-- Write `value` into the buffer cell at `offset`. -/
def patchCell (buf : List Nat) (offset value : Nat) : List Nat :=
  buf.set offset value

/-- Apply a list of `(offset, value)` patches in order. -/
def applyPatches (buf : List Nat) (patches : List (Nat × Nat)) : List Nat :=
  patches.foldl (fun b p => patchCell b p.1 p.2) buf

/-- All patch sites of a `LinkData`, in the order linking walks them:
internal links first, then the symbolic-link offsets. -/
def LinkData.patchSites (linkData : LinkData) : List Nat :=
  linkData.internalLinks.map (fun link => link.patchAtOffset) ++
  (linkData.symbolicLinks.map (fun sym => sym.2)).flatten

/-- Modelled from the spec: the body of `StaticallyLink` lives in
WasmCode.cpp, which is not among the sources.  Per the spec every
internal-link offset is patched to point at `base + targetOffset` and every
symbolic-link offset is patched to the absolute address of the named
runtime symbol (`symAddr`). -/
def StaticallyLink (base : Nat) (symAddr : Nat → Nat) (linkData : LinkData)
    (buf : List Nat) : List Nat :=
  applyPatches buf
    (linkData.internalLinks.map (fun link => (link.patchAtOffset, base + link.targetOffset)) ++
     (linkData.symbolicLinks.map
        (fun sym => sym.2.map (fun offset => (offset, symAddr sym.1)))).flatten)

/-- Modelled from the spec: the body of `StaticallyUnlink` lives in
WasmCode.cpp, which is not among the sources.  Per the spec it reverses
linking for serialization: every internal patch site becomes its
segment-relative `targetOffset` again and every symbolic patch site becomes
the segment-relative placeholder (`placeholder`) for its symbol. -/
def StaticallyUnlink (placeholder : Nat → Nat) (linkData : LinkData)
    (buf : List Nat) : List Nat :=
  applyPatches buf
    (linkData.internalLinks.map (fun link => (link.patchAtOffset, link.targetOffset)) ++
     (linkData.symbolicLinks.map
        (fun sym => sym.2.map (fun offset => (offset, placeholder sym.1)))).flatten)

/-! ## Properties of the comparator and of `BinarySearchIf` -/

/-- The comparator answers `0` exactly on blocks whose range contains the
program counter. -/
theorem codeBlockPCCmp_eq_zero_iff (pc : Nat) (cb : CodeBlock) :
    codeBlockPCCmp pc cb = 0 ↔ cb.codeBase ≤ pc ∧ pc < cb.codeBase + cb.codeLength := by
  unfold codeBlockPCCmp CodeBlock.containsCodePC CodeBlock.base CodeBlock.length
  split_ifs with h1 h2 <;> simp_all <;> omega

/-- The comparator is negative exactly when the program counter lies below
the block. -/
theorem codeBlockPCCmp_neg_iff (pc : Nat) (cb : CodeBlock) :
    codeBlockPCCmp pc cb < 0 ↔ pc < cb.codeBase := by
  unfold codeBlockPCCmp CodeBlock.containsCodePC CodeBlock.base CodeBlock.length
  split_ifs with h1 h2 <;> simp_all <;> omega

/-- The comparator is positive exactly when the program counter lies at or
above the end of the block. -/
theorem codeBlockPCCmp_pos_iff (pc : Nat) (cb : CodeBlock) :
    0 < codeBlockPCCmp pc cb ↔ cb.codeBase + cb.codeLength ≤ pc := by
  unfold codeBlockPCCmp CodeBlock.containsCodePC CodeBlock.base CodeBlock.length
  split_ifs with h1 h2 <;> simp_all <;> omega

/-- When `BinarySearchIf` reports a hit, the hit index is in range and the
comparator is zero there. -/
theorem binarySearchIf_found {α : Type} (c : List α) (d : α) (cmp : α → Int) :
    ∀ (fuel low high idx : Nat), high - low ≤ fuel →
      binarySearchIf c d cmp low high = (true, idx) →
      low ≤ idx ∧ idx < high ∧ cmp (c.getD idx d) = 0 := by
  intro fuel
  induction fuel with
  | zero =>
    intro low high idx hle h
    rw [binarySearchIf] at h
    rw [dif_neg (by omega)] at h
    exact absurd h (by simp)
  | succ n ih =>
    intro low high idx hle h
    rw [binarySearchIf] at h
    by_cases hlh : low < high
    · rw [dif_pos hlh] at h
      by_cases h0 : cmp (c.getD (low + (high - low) / 2) d) = 0
      · rw [if_pos h0] at h
        have : low + (high - low) / 2 = idx := by
          simpa using congrArg Prod.snd h
        subst this
        exact ⟨by omega, by omega, h0⟩
      · rw [if_neg h0] at h
        by_cases hneg : cmp (c.getD (low + (high - low) / 2) d) < 0
        · rw [if_pos hneg] at h
          have := ih low (low + (high - low) / 2) idx (by omega) h
          exact ⟨this.1, by omega, this.2.2⟩
        · rw [if_neg hneg] at h
          have := ih (low + (high - low) / 2 + 1) high idx (by omega) h
          exact ⟨by omega, this.2.1, this.2.2⟩
    · rw [dif_neg hlh] at h
      exact absurd h (by simp)

/-- When `BinarySearchIf` reports a miss over a range on which the
comparator is monotone, the returned insertion point splits the range:
everything below it compares positive, everything at or above compares
negative. -/
theorem binarySearchIf_notFound {α : Type} (c : List α) (d : α) (cmp : α → Int)
    (high0 : Nat)
    (hmono : ∀ i j, i ≤ j → j < high0 →
      ((cmp (c.getD i d) < 0 → cmp (c.getD j d) < 0) ∧
       (0 < cmp (c.getD j d) → 0 < cmp (c.getD i d)))) :
    ∀ (fuel low high idx : Nat), high - low ≤ fuel →
      high ≤ high0 → low ≤ high →
      (∀ k, k < low → 0 < cmp (c.getD k d)) →
      (∀ k, high ≤ k → k < high0 → cmp (c.getD k d) < 0) →
      binarySearchIf c d cmp low high = (false, idx) →
      low ≤ idx ∧ idx ≤ high ∧
      (∀ k, k < idx → 0 < cmp (c.getD k d)) ∧
      (∀ k, idx ≤ k → k < high0 → cmp (c.getD k d) < 0) := by
  intro fuel
  induction fuel with
  | zero =>
    intro low high idx hle hh0 hlh lowInv highInv h
    rw [binarySearchIf] at h
    rw [dif_neg (by omega)] at h
    have hidx : low = idx := by simpa using congrArg Prod.snd h
    subst hidx
    exact ⟨le_refl _, by omega, lowInv, fun k hk1 hk2 => highInv k (by omega) hk2⟩
  | succ n ih =>
    intro low high idx hle hh0 hlh lowInv highInv h
    rw [binarySearchIf] at h
    by_cases hlow : low < high
    · rw [dif_pos hlow] at h
      by_cases h0 : cmp (c.getD (low + (high - low) / 2) d) = 0
      · rw [if_pos h0] at h
        exact absurd h (by simp)
      · rw [if_neg h0] at h
        by_cases hneg : cmp (c.getD (low + (high - low) / 2) d) < 0
        · rw [if_pos hneg] at h
          have highInv' : ∀ k, low + (high - low) / 2 ≤ k → k < high0 →
              cmp (c.getD k d) < 0 := by
            intro k hk1 hk2
            exact (hmono (low + (high - low) / 2) k hk1 hk2).1 hneg
          have := ih low (low + (high - low) / 2) idx (by omega) (by omega) (by omega)
            lowInv highInv' h
          exact ⟨this.1, by omega, this.2.2⟩
        · rw [if_neg hneg] at h
          have hpos : 0 < cmp (c.getD (low + (high - low) / 2) d) := by omega
          have lowInv' : ∀ k, k < low + (high - low) / 2 + 1 →
              0 < cmp (c.getD k d) := by
            intro k hk
            exact (hmono k (low + (high - low) / 2) (by omega) (by omega)).2 hpos
          have := ih (low + (high - low) / 2 + 1) high idx (by omega) hh0 (by omega)
            lowInv' highInv h
          exact ⟨by omega, this.2.1, this.2.2⟩
    · rw [dif_neg hlow] at h
      have hidx : low = idx := by simpa using congrArg Prod.snd h
      subst hidx
      exact ⟨le_refl _, by omega, lowInv, fun k hk1 hk2 => highInv k (by omega) hk2⟩

/-! ## Sorted, non-overlapping block vectors -/

/-- The invariant of the vectors of `ThreadSafeCodeBlockMap`: positive-length
blocks, sorted by base address, with non-overlapping ranges. -/
def sortedNonoverlapping (l : List CodeBlock) : Prop :=
  (∀ cb ∈ l, 0 < cb.codeLength) ∧
  l.Pairwise (fun a b => a.codeBase + a.codeLength ≤ b.codeBase)

instance (l : List CodeBlock) : Decidable (sortedNonoverlapping l) := by
  unfold sortedNonoverlapping
  infer_instance

/-- Two blocks with disjoint code ranges. -/
def disjointRanges (a b : CodeBlock) : Prop :=
  a.codeBase + a.codeLength ≤ b.codeBase ∨ b.codeBase + b.codeLength ≤ a.codeBase

instance (a b : CodeBlock) : Decidable (disjointRanges a b) := by
  unfold disjointRanges
  infer_instance

/-- Over a sorted non-overlapping vector the `CodeBlockPC` comparator is
monotone along the vector, which is what justifies the binary searches. -/
theorem codeBlockPCCmp_mono (l : List CodeBlock) (hs : sortedNonoverlapping l) (pc : Nat) :
    ∀ i j, i ≤ j → j < l.length →
      ((codeBlockPCCmp pc (l.getD i default) < 0 → codeBlockPCCmp pc (l.getD j default) < 0) ∧
       (0 < codeBlockPCCmp pc (l.getD j default) → 0 < codeBlockPCCmp pc (l.getD i default))) := by
  intro i j hij hj
  have hi : i < l.length := Nat.lt_of_le_of_lt hij hj
  rcases Nat.eq_or_lt_of_le hij with rfl | hlt
  · exact ⟨id, id⟩
  · have hR : (l.getD i default).codeBase + (l.getD i default).codeLength ≤
        (l.getD j default).codeBase := by
      rw [List.getD_eq_getElem l default hi, List.getD_eq_getElem l default hj]
      exact List.pairwise_iff_getElem.mp hs.2 i j hi hj hlt
    constructor
    · intro h
      rw [codeBlockPCCmp_neg_iff] at h ⊢
      omega
    · intro h
      rw [codeBlockPCCmp_pos_iff] at h ⊢
      omega

/-- A hit of the map's binary search lands, at a valid index, on a block
whose range contains the program counter (no sortedness needed: the
comparator itself checks containment). -/
theorem bsearch_found_contains (l : List CodeBlock) (pc idx : Nat)
    (h : binarySearchIf l default (codeBlockPCCmp pc) 0 l.length = (true, idx)) :
    idx < l.length ∧ (l.getD idx default).codeBase ≤ pc ∧
      pc < (l.getD idx default).codeBase + (l.getD idx default).codeLength := by
  have hf := binarySearchIf_found l default (codeBlockPCCmp pc) l.length 0 l.length idx
    (by omega) h
  exact ⟨hf.2.1, (codeBlockPCCmp_eq_zero_iff pc _).mp hf.2.2⟩

/-- A miss of the map's binary search over a sorted vector: every block
below the insertion point ends at or before `pc` and every block at or
after it starts above `pc`. -/
theorem bsearch_sorted_notFound (l : List CodeBlock) (hs : sortedNonoverlapping l)
    (pc idx : Nat)
    (h : binarySearchIf l default (codeBlockPCCmp pc) 0 l.length = (false, idx)) :
    idx ≤ l.length ∧
    (∀ k, k < idx → (l.getD k default).codeBase + (l.getD k default).codeLength ≤ pc) ∧
    (∀ k, idx ≤ k → k < l.length → pc < (l.getD k default).codeBase) := by
  have hn := binarySearchIf_notFound l default (codeBlockPCCmp pc) l.length
    (fun i j hij hj => codeBlockPCCmp_mono l hs pc i j hij hj)
    l.length 0 l.length idx (by omega) (le_refl _) (Nat.zero_le _)
    (fun k hk => absurd hk (Nat.not_lt_zero k))
    (fun k hk1 hk2 => absurd hk2 (Nat.not_lt.mpr hk1))
    h
  refine ⟨hn.2.1, fun k hk => ?_, fun k hk1 hk2 => ?_⟩
  · have := hn.2.2.1 k hk
    rwa [codeBlockPCCmp_pos_iff] at this
  · have := hn.2.2.2 k hk1 hk2
    rwa [codeBlockPCCmp_neg_iff] at this

/-! ## C1: soundness of `ThreadSafeCodeBlockMap::lookup` -/

/-- C1: for every state of the `ThreadSafeCodeBlockMap` and every program
counter `pc`, `lookup(pc)` returns either a `CodeBlock` whose
`[base, base + length)` range contains `pc`, or null — setting the optional
`codeRange` out-parameter to null on a miss — and `lookup` never acquires
the mutators mutex. -/
theorem c1_lookup_sound (m : ThreadSafeCodeBlockMap)
    (lookupRange : CodeBlock → Nat → Option Nat) (pc : Nat) (wantCodeRange : Bool) :
    (∀ cb, (m.lookup lookupRange pc wantCodeRange).block = some cb →
        cb.containsCodePC pc = true) ∧
    ((m.lookup lookupRange pc wantCodeRange).block = none → wantCodeRange = true →
      (m.lookup lookupRange pc wantCodeRange).codeRangeOut = some none) ∧
    MapEvent.lockMutators ∉ (m.lookup lookupRange pc wantCodeRange).events := by
  rcases hbs : binarySearchIf m.readonlyCodeBlocks default (codeBlockPCCmp pc) 0
      m.readonlyCodeBlocks.length with ⟨found, index⟩
  cases found with
  | false =>
    simp only [ThreadSafeCodeBlockMap.lookup, hbs]
    refine ⟨fun cb hcb => by simp at hcb, fun _ hw => by simp [hw], by decide⟩
  | true =>
    have hc := bsearch_found_contains m.readonlyCodeBlocks pc index hbs
    simp only [ThreadSafeCodeBlockMap.lookup, hbs]
    refine ⟨fun cb hcb => ?_, fun hnone => by simp at hnone, by decide⟩
    have hcb' : m.readonlyCodeBlocks.getD index default = cb := by simpa using hcb
    subst hcb'
    simp only [CodeBlock.containsCodePC, CodeBlock.base, CodeBlock.length,
      Bool.and_eq_true, decide_eq_true_eq]
    exact ⟨hc.2.1, hc.2.2⟩

/-- The three-block scenario from the spec, reused as concrete witness
data: blocks of length `0x500` at the given base address. -/
def exampleBlock (b : Nat) : CodeBlock :=
  { code := none, codeBase := b, codeLength := 0x500, funcToCodeRange := default }

/-- A map state holding the three scenario blocks in both vectors. -/
def exampleMap : ThreadSafeCodeBlockMap :=
  { mutableCodeBlocks := [exampleBlock 0x1000, exampleBlock 0x2000, exampleBlock 0x3000]
    readonlyCodeBlocks := [exampleBlock 0x1000, exampleBlock 0x2000, exampleBlock 0x3000] }

/-- Witness for C1 at the spec's scenario: `pc = 0x2200` hits the block
based at `0x2000`. -/
theorem c1_lookup_sound_witness :
    (exampleBlock 0x2000).containsCodePC 0x2200 = true :=
  (c1_lookup_sound exampleMap (fun _ _ => none) 0x2200 true).1 (exampleBlock 0x2000)
    (by simp [ThreadSafeCodeBlockMap.lookup, exampleMap, exampleBlock, binarySearchIf,
      codeBlockPCCmp, CodeBlock.containsCodePC, CodeBlock.base, CodeBlock.length])

/-! ## Vector insertion and erasure -/

/-- An element of `insertAt l i x` is `x` or an element of `l`. -/
theorem mem_insertAt {α : Type} (l : List α) (i : Nat) (x y : α) :
    y ∈ insertAt l i x → y = x ∨ y ∈ l := by
  intro hy
  unfold insertAt at hy
  rcases List.mem_append.mp hy with h | h
  · exact Or.inr (List.take_subset i l h)
  · rcases List.mem_cons.mp h with h | h
    · exact Or.inl h
    · exact Or.inr (List.drop_subset i l h)

/-- Elements of `l.take n` are elements of `l` at indices below `n`. -/
theorem mem_take_getElem {α : Type} :
    ∀ (l : List α) (n : Nat) (b : α), b ∈ l.take n →
      ∃ k, ∃ h : k < l.length, k < n ∧ l[k] = b := by
  intro l
  induction l with
  | nil => intro n b hb; simp at hb
  | cons a t ih =>
    intro n b hb
    cases n with
    | zero => simp at hb
    | succ m =>
      rw [List.take_succ_cons] at hb
      rcases List.mem_cons.mp hb with h | h
      · exact ⟨0, by simp, Nat.succ_pos m, by simp [h.symm]⟩
      · obtain ⟨k, hk, hkm, hget⟩ := ih m b h
        exact ⟨k + 1, by simpa using Nat.succ_lt_succ hk, Nat.succ_lt_succ hkm,
          by simpa using hget⟩

/-- Elements of `l.drop n` are elements of `l` at indices at or above `n`. -/
theorem mem_drop_getElem {α : Type} :
    ∀ (n : Nat) (l : List α) (b : α), b ∈ l.drop n →
      ∃ k, ∃ h : k < l.length, n ≤ k ∧ l[k] = b := by
  intro n
  induction n with
  | zero =>
    intro l b hb
    rw [List.drop_zero] at hb
    obtain ⟨⟨k, hk⟩, hget⟩ := List.mem_iff_get.mp hb
    exact ⟨k, hk, Nat.zero_le k, hget⟩
  | succ m ih =>
    intro l b hb
    cases l with
    | nil => simp at hb
    | cons a t =>
      rw [List.drop_succ_cons] at hb
      obtain ⟨k, hk, hmk, hget⟩ := ih t b hb
      exact ⟨k + 1, by simpa using Nat.succ_lt_succ hk, Nat.succ_le_succ hmk,
        by simpa using hget⟩

/-- Inserting at a position that respects the ordering preserves
pairwise-ordering of the vector. -/
theorem pairwise_insertAt {α : Type} (R : α → α → Prop) :
    ∀ (i : Nat) (l : List α) (x : α),
      (∀ b ∈ l.take i, R b x) → (∀ b ∈ l.drop i, R x b) → l.Pairwise R →
      (insertAt l i x).Pairwise R := by
  intro i
  induction i with
  | zero =>
    intro l x h1 h2 hp
    unfold insertAt
    simpa using List.pairwise_cons.mpr ⟨fun b hb => h2 b (by simpa using hb), hp⟩
  | succ n ih =>
    intro l x h1 h2 hp
    cases l with
    | nil =>
      unfold insertAt
      simp
    | cons a t =>
      have hrw : insertAt (a :: t) (n + 1) x = a :: insertAt t n x := by
        unfold insertAt
        simp [List.take_succ_cons, List.drop_succ_cons]
      rw [hrw]
      rw [List.pairwise_cons] at hp
      refine List.pairwise_cons.mpr ⟨fun b hb => ?_, ?_⟩
      · rcases mem_insertAt t n x b hb with rfl | hbt
        · exact h1 a (by simp [List.take_succ_cons])
        · exact hp.1 b hbt
      · refine ih t x (fun b hb => h1 b ?_) (fun b hb => h2 b ?_) hp.2
        · rw [List.take_succ_cons]
          exact List.mem_cons_of_mem a hb
        · rwa [List.drop_succ_cons]

/-- Erasure at an index produces a sublist. -/
theorem eraseAt_sublist {α : Type} (l : List α) (i : Nat) : (eraseAt l i).Sublist l := by
  unfold eraseAt
  have hdd : l.drop (i + 1) = (l.drop i).drop 1 := by
    rw [List.drop_drop, Nat.add_comm]
  rw [hdd]
  have hsub : (l.take i ++ (l.drop i).drop 1).Sublist (l.take i ++ l.drop i) :=
    (List.drop_sublist 1 (l.drop i)).append_left (l.take i)
  rwa [List.take_append_drop i l] at hsub

/-- Decomposing a list around an index: `l` is a permutation of `l[i]`
consed onto `eraseAt l i`. -/
theorem perm_getElem_cons_eraseAt {α : Type} (l : List α) (i : Nat) (h : i < l.length) :
    (l[i] :: eraseAt l i).Perm l := by
  have hp := (@List.perm_middle _ l[i] (l.take i) (l.drop (i + 1))).symm
  have hdecomp : l.take i ++ l[i] :: l.drop (i + 1) = l := by
    rw [List.getElem_cons_drop l i h]
    exact List.take_append_drop i l
  rw [hdecomp] at hp
  exact hp

/-- Inserting anywhere is, up to permutation, consing. -/
theorem perm_insertAt {α : Type} (l : List α) (i : Nat) (x : α) :
    (insertAt l i x).Perm (x :: l) := by
  unfold insertAt
  have hp := @List.perm_middle _ x (l.take i) (l.drop i)
  rwa [List.take_append_drop i l] at hp

/-- In a sorted non-overlapping vector, an index whose block contains the
base of a member block `cs` is the index of `cs` itself. -/
theorem sorted_unique_container (l : List CodeBlock) (hs : sortedNonoverlapping l)
    (cs : CodeBlock) (hmem : cs ∈ l) (idx : Nat) (hidx : idx < l.length)
    (hlo : l[idx].codeBase ≤ cs.codeBase)
    (hhi : cs.codeBase < l[idx].codeBase + l[idx].codeLength) :
    l[idx] = cs := by
  obtain ⟨⟨k, hk⟩, hget⟩ := List.mem_iff_get.mp hmem
  have hkcs : l[k] = cs := hget
  have hpos : 0 < cs.codeLength := hs.1 cs hmem
  rcases lt_trichotomy k idx with h | h | h
  · have hR := List.pairwise_iff_getElem.mp hs.2 k idx hk hidx h
    rw [hkcs] at hR
    omega
  · subst h
    exact hkcs
  · have hR := List.pairwise_iff_getElem.mp hs.2 idx k hidx hk h
    rw [hkcs] at hR
    omega

/-! ## C4: both backing arrays converge; the visible array stays sorted -/

/-- The search preceding an insertion misses (`MOZ_ALWAYS_FALSE`): the base
of a block disjoint from every registered block is contained in none. -/
theorem bsearch_disjoint_notFound (l : List CodeBlock) (cs : CodeBlock)
    (hpos : 0 < cs.codeLength) (hdisj : ∀ b ∈ l, disjointRanges cs b) :
    (binarySearchIf l default (codeBlockPCCmp cs.codeBase) 0 l.length).1 = false := by
  rcases hbs : binarySearchIf l default (codeBlockPCCmp cs.codeBase) 0 l.length with
    ⟨found, idx⟩
  cases found with
  | false => rfl
  | true =>
    exfalso
    obtain ⟨hidx, hlo, hhi⟩ := bsearch_found_contains l cs.codeBase idx hbs
    rw [List.getD_eq_getElem l default hidx] at hlo hhi
    have hmem : l[idx] ∈ l := List.getElem_mem hidx
    rcases hdisj _ hmem with hcase | hcase
    · omega
    · omega

/-- Inserting a disjoint block at the binary-search insertion point keeps
the vector sorted and non-overlapping. -/
theorem sortedNonoverlapping_insertAt (l : List CodeBlock) (cs : CodeBlock)
    (hs : sortedNonoverlapping l) (hpos : 0 < cs.codeLength)
    (hdisj : ∀ b ∈ l, disjointRanges cs b) (idx : Nat)
    (hbs : binarySearchIf l default (codeBlockPCCmp cs.codeBase) 0 l.length =
      (false, idx)) :
    sortedNonoverlapping (insertAt l idx cs) := by
  obtain ⟨hidxlen, hleft, hright⟩ := bsearch_sorted_notFound l hs cs.codeBase idx hbs
  constructor
  · intro cb hcb
    rcases mem_insertAt l idx cs cb hcb with rfl | hmem
    · exact hpos
    · exact hs.1 cb hmem
  · refine pairwise_insertAt _ idx l cs ?_ ?_ hs.2
    · intro b hb
      obtain ⟨k, hk, hkidx, hget⟩ := mem_take_getElem l idx b hb
      have hend := hleft k hkidx
      rw [List.getD_eq_getElem l default hk, hget] at hend
      exact hend
    · intro b hb
      obtain ⟨k, hk, hkidx, hget⟩ := mem_drop_getElem idx l b hb
      have hbase := hright k hkidx hk
      rw [List.getD_eq_getElem l default hk, hget] at hbase
      have hbl : b ∈ l := hget ▸ List.getElem_mem hk
      have hbpos : 0 < b.codeLength := hs.1 b hbl
      rcases hdisj b hbl with hcase | hcase
      · exact hcase
      · omega

/-- C4: after every completed `insert(block)` or `remove(block)` the two
backing arrays hold the same logical contents — the identical mutation is
applied to both at the same index around the pointer swap — and the array
visible to readers is sorted by base address with non-overlapping ranges;
the contents change exactly by the inserted/removed block. -/
theorem c4_insert_remove_coherent (m : ThreadSafeCodeBlockMap) (cs : CodeBlock)
    (heq : m.mutableCodeBlocks = m.readonlyCodeBlocks)
    (hs : sortedNonoverlapping m.readonlyCodeBlocks) :
    (0 < cs.codeLength → (∀ b ∈ m.readonlyCodeBlocks, disjointRanges cs b) →
      ∃ m2, m.insert cs true true =
          InsertOutcome.ok m2
            [MapEvent.lockMutators, MapEvent.swapReadonly, MapEvent.unlockMutators] ∧
        m2.mutableCodeBlocks = m2.readonlyCodeBlocks ∧
        sortedNonoverlapping m2.readonlyCodeBlocks ∧
        m2.readonlyCodeBlocks.Perm (cs :: m.readonlyCodeBlocks)) ∧
    (cs ∈ m.readonlyCodeBlocks →
      (m.remove cs).1.mutableCodeBlocks = (m.remove cs).1.readonlyCodeBlocks ∧
      sortedNonoverlapping (m.remove cs).1.readonlyCodeBlocks ∧
      (cs :: (m.remove cs).1.readonlyCodeBlocks).Perm m.readonlyCodeBlocks) := by
  constructor
  · intro hpos hdisj
    have hnf := bsearch_disjoint_notFound m.readonlyCodeBlocks cs hpos hdisj
    rcases hbs : binarySearchIf m.readonlyCodeBlocks default (codeBlockPCCmp cs.codeBase)
        0 m.readonlyCodeBlocks.length with ⟨found, idx⟩
    rw [hbs] at hnf
    simp only at hnf
    subst hnf
    have hsort := sortedNonoverlapping_insertAt m.readonlyCodeBlocks cs hs hpos hdisj idx hbs
    refine ⟨{ mutableCodeBlocks := insertAt m.readonlyCodeBlocks idx cs
              readonlyCodeBlocks := insertAt m.readonlyCodeBlocks idx cs },
      ?_, rfl, hsort, perm_insertAt _ idx cs⟩
    unfold ThreadSafeCodeBlockMap.insert
    simp only [heq, CodeBlock.base, hbs]
    simp
  · intro hmem
    have hpos := hs.1 cs hmem
    rcases hbs : binarySearchIf m.readonlyCodeBlocks default (codeBlockPCCmp cs.codeBase)
        0 m.readonlyCodeBlocks.length with ⟨found, idx⟩
    cases found with
    | false =>
      exfalso
      obtain ⟨_, hleft, hright⟩ :=
        bsearch_sorted_notFound m.readonlyCodeBlocks hs cs.codeBase idx hbs
      obtain ⟨⟨k, hk⟩, hget⟩ := List.mem_iff_get.mp hmem
      have hkcs : m.readonlyCodeBlocks[k] = cs := hget
      rcases Nat.lt_or_ge k idx with h | h
      · have hend := hleft k h
        rw [List.getD_eq_getElem _ _ hk, hkcs] at hend
        omega
      · have hbase := hright k h hk
        rw [List.getD_eq_getElem _ _ hk, hkcs] at hbase
        omega
    | true =>
      obtain ⟨hidx, hlo, hhi⟩ :=
        bsearch_found_contains m.readonlyCodeBlocks cs.codeBase idx hbs
      rw [List.getD_eq_getElem _ _ hidx] at hlo hhi
      have hcs : m.readonlyCodeBlocks[idx] = cs :=
        sorted_unique_container m.readonlyCodeBlocks hs cs hmem idx hidx hlo hhi
      have hrm : m.remove cs =
          ({ mutableCodeBlocks := eraseAt m.readonlyCodeBlocks idx
             readonlyCodeBlocks := eraseAt m.readonlyCodeBlocks idx },
           (eraseAt m.readonlyCodeBlocks idx).length,
           [MapEvent.lockMutators, MapEvent.swapReadonly, MapEvent.unlockMutators]) := by
        unfold ThreadSafeCodeBlockMap.remove
        simp only [heq, CodeBlock.base, hbs]
      rw [hrm]
      refine ⟨rfl, ?_, ?_⟩
      · exact ⟨fun cb hcb => hs.1 cb ((eraseAt_sublist _ idx).subset hcb),
          List.Pairwise.sublist (eraseAt_sublist _ idx) hs.2⟩
      · rw [← hcs]
        exact perm_getElem_cons_eraseAt m.readonlyCodeBlocks idx hidx

/-! ## C5: asymmetric handling of allocation failure in `insert` -/

/-- C5: allocation failure while inserting into the first (private) array
makes `insert` return false with the published read-only contents — indeed
the whole map — unchanged and no pointer swap performed, while allocation
failure on the second array, after the swap-and-wait, aborts the process
rather than rolling back. -/
theorem c5_insert_oom_asymmetric (m : ThreadSafeCodeBlockMap) (cs : CodeBlock)
    (alloc2 : Bool) :
    m.insert cs false alloc2 =
      InsertOutcome.fail m [MapEvent.lockMutators, MapEvent.unlockMutators] ∧
    m.insert cs true false = InsertOutcome.oomCrash := by
  constructor
  · unfold ThreadSafeCodeBlockMap.insert
    simp
  · unfold ThreadSafeCodeBlockMap.insert
    simp

/-! ## C2: writes to jit-entry jump-table slots -/

/-- A one-function jump table whose jit-entry slot 0 holds the non-null
value 1. -/
def jtC2 : JumpTables :=
  { mode := CompileMode.Tier1
    tiering := [none]
    jit := [some 1]
    jitBaseAddress := 0x100
    numFuncs := 1 }

/-- C2 counterexample: `setJitEntry` is a jump-table operation, and it
changes jit-entry slot 0 from the non-null value 1 to the different
non-null value 2 — so `setJitEntryIfNull` is not the only operation that
writes jit-entry slots, and a non-null slot can change. -/
theorem c2_counterexample :
    jtC2.jit.getD 0 none = some 1 ∧
    (JumpTableOp.apply jtC2 (JumpTableOp.setJitEntry 0 (some 2))).jit.getD 0 none =
      some 2 := by
  constructor
  · rfl
  · rfl

/-- C2 amended: in any sequence of jump-table operations that contains no
`setJitEntry` call, a jit-entry slot once non-null is never set back to
null and never changed to a different value: `setJitEntryIfNull`'s
compare-and-swap writes only when the slot is null, and `setTieringEntry`
never touches the jit-entry table. -/
theorem c2_amended_jit_slot_monotone (ops : List JumpTableOp) :
    ∀ (jt : JumpTables) (i : Nat) (v : Nat),
      (∀ op ∈ ops, op.isSetJitEntry = false) →
      jt.jit.getD i none = some v →
      (applyJumpTableOps jt ops).jit.getD i none = some v := by
  induction ops with
  | nil => intro jt i v _ hv; exact hv
  | cons op rest ih =>
    intro jt i v hops hv
    have hstep : (JumpTableOp.apply jt op).jit.getD i none = some v := by
      cases op with
      | setJitEntry j t =>
        exact absurd (hops _ (List.mem_cons_self _ _)) (by simp [JumpTableOp.isSetJitEntry])
      | setJitEntryIfNull j t =>
        show (jt.setJitEntryIfNull j t).jit.getD i none = some v
        unfold JumpTables.setJitEntryIfNull
        by_cases hj : jt.jit.getD j none = none
        · rw [if_pos hj]
          have hij : j ≠ i := by
            intro h
            rw [h, hv] at hj
            cases hj
          simp only
          rw [List.getD_eq_getElem?_getD, List.getElem?_set_ne hij,
            ← List.getD_eq_getElem?_getD]
          exact hv
        · rw [if_neg hj]
          exact hv
      | setTieringEntry j t =>
        show (jt.setTieringEntry j t).jit.getD i none = some v
        unfold JumpTables.setTieringEntry
        split_ifs <;> exact hv
    have htail := ih (JumpTableOp.apply jt op) i v
      (fun op' h => hops op' (List.mem_cons_of_mem op h)) hstep
    simpa [applyJumpTableOps, List.foldl_cons] using htail

/-- Witness for C2's amended claim: slot 0 of `jtC2` holds 1 and still
holds 1 after a CAS attempt and a tiering store. -/
theorem c2_amended_witness :
    (applyJumpTableOps jtC2
      [JumpTableOp.setJitEntryIfNull 0 (some 9),
       JumpTableOp.setTieringEntry 0 (some 3)]).jit.getD 0 none = some 1 :=
  c2_amended_jit_slot_monotone
    [JumpTableOp.setJitEntryIfNull 0 (some 9), JumpTableOp.setTieringEntry 0 (some 3)]
    jtC2 0 1 (by decide) (by decide)

/-! ## C3: the three-state tier-2 protocol -/

/-- C3: along every protocol trace the state rank (Absent 0, Building 1,
Published 2) is monotone — the three states are visited in order — and a
published state is final: once `hasTier2_` is true nothing changes any
more, so `hasTier2_` flips at most once and `tier2_` is never written
after publication; a module either never tiers up or tiers up exactly
once. -/
theorem c3_tier2_protocol (s t : Tier2State) (hreach : Tier2Reach s t) :
    s.rank ≤ t.rank ∧ (s.hasTier2 = true → t = s) := by
  constructor
  · induction hreach with
    | refl => exact le_refl _
    | tail hst hstep ih =>
      refine le_trans ih ?_
      cases hstep with
      | install b => simp [Tier2State.rank]
      | publish b => simp [Tier2State.rank]
  · intro hs
    induction hreach with
    | refl => rfl
    | tail hst hstep ih =>
      have hb := ih
      rw [hb] at hstep
      exfalso
      cases hstep <;> simp_all

/-- Witness for C3: the rank is monotone along the concrete trace
Absent → Building → Published, and a published state is final. -/
theorem c3_tier2_protocol_witness :
    Tier2State.rank tier2Init ≤
      Tier2State.rank { tier2 := some 5, hasTier2 := true } ∧
    ({ tier2 := some 5, hasTier2 := true } : Tier2State) =
      { tier2 := some 5, hasTier2 := true } :=
  ⟨(c3_tier2_protocol tier2Init { tier2 := some 5, hasTier2 := true }
      (Relation.ReflTransGen.tail (Relation.ReflTransGen.single (Tier2Step.install 5))
        (Tier2Step.publish 5))).1,
   (c3_tier2_protocol { tier2 := some 5, hasTier2 := true }
      { tier2 := some 5, hasTier2 := true } Relation.ReflTransGen.refl).2 rfl⟩

/-- A two-block map state used to witness C4. -/
def mapC4 : ThreadSafeCodeBlockMap :=
  { mutableCodeBlocks := [exampleBlock 0x1000, exampleBlock 0x3000]
    readonlyCodeBlocks := [exampleBlock 0x1000, exampleBlock 0x3000] }

/-- Witness for C4: inserting the block at 0x2000 between 0x1000 and 0x3000
succeeds, converges both arrays and keeps the visible array sorted. -/
theorem c4_insert_remove_coherent_witness :
    ∃ m2, mapC4.insert (exampleBlock 0x2000) true true =
        InsertOutcome.ok m2
          [MapEvent.lockMutators, MapEvent.swapReadonly, MapEvent.unlockMutators] ∧
      m2.mutableCodeBlocks = m2.readonlyCodeBlocks ∧
      sortedNonoverlapping m2.readonlyCodeBlocks ∧
      m2.readonlyCodeBlocks.Perm (exampleBlock 0x2000 :: mapC4.readonlyCodeBlocks) :=
  (c4_insert_remove_coherent mapC4 (exampleBlock 0x2000) (by decide)
    (by decide)).1 (by decide) (by decide)

/-! ## C6: the bump allocator of `CodeSegment` -/

/-- Every successful claim sequence stays within the segment, keeps the
base, grows the length monotonically, and yields pairwise non-overlapping
ranges. -/
theorem claimMany_bounds (ns : List Nat) :
    ∀ (s : CodeSegment) (ranges : List (Nat × Nat)) (s2 : CodeSegment),
      claimMany s ns = some (ranges, s2) →
      s2.base = s.base ∧ s.lengthBytes ≤ s2.lengthBytes ∧
      (∀ r ∈ ranges, s.base + s.lengthBytes ≤ r.1 ∧
        r.1 + r.2 ≤ s2.base + s2.lengthBytes) ∧
      ranges.Pairwise (fun a b => a.1 + a.2 ≤ b.1) := by
  induction ns with
  | nil =>
    intro s ranges s2 h
    unfold claimMany at h
    injection h with h
    injection h with h1 h2
    subst h1
    subst h2
    exact ⟨rfl, le_refl _, fun r hr => absurd hr (List.not_mem_nil r), List.Pairwise.nil⟩
  | cons n rest ih =>
    intro s ranges s2 h
    unfold claimMany at h
    cases hcs : s.claimSpace n with
    | none => rw [hcs] at h; cases h
    | some p =>
      rw [hcs] at h
      obtain ⟨addr, s1⟩ := p
      dsimp only at h
      cases hcm : claimMany s1 rest with
      | none => rw [hcm] at h; cases h
      | some q =>
        rw [hcm] at h
        obtain ⟨rs, s2x⟩ := q
        dsimp only at h
        injection h with h
        injection h with h1 h2
        subst h1
        subst h2
        unfold CodeSegment.claimSpace at hcs
        split_ifs at hcs with hsp
        injection hcs with hcs
        injection hcs with ha hs1
        subst ha
        subst hs1
        obtain ⟨ihbase, ihlen, ihranges, ihpair⟩ := ih _ rs s2x hcm
        simp only at ihbase ihlen ihranges
        refine ⟨ihbase, by omega, ?_, ?_⟩
        · intro r hr
          rcases List.mem_cons.mp hr with rfl | hrs
          · constructor
            · exact le_refl _
            · have := ihlen
              omega
          · have := ihranges r hrs
            omega
        · refine List.pairwise_cons.mpr ⟨fun r hrs => ?_, ihpair⟩
          have := ihranges r hrs
          omega

/-- C6: `hasSpace(n)` (with `n` page-aligned) holds exactly when `n` more
bytes fit within capacity; under `hasSpace(n)`, `claimSpace(n)` returns
`base + lengthBytes` and bumps `lengthBytes` by `n`, preserving
`lengthBytes ≤ capacityBytes`; and any sequence of successful claims yields
pairwise non-overlapping sub-ranges. -/
theorem c6_bump_allocator (s : CodeSegment) (n pageSize : Nat) :
    (AlignBytesNeeded pageSize n = n →
      (s.hasSpace n = true ↔ s.lengthBytes + n ≤ s.capacityBytes)) ∧
    (s.hasSpace n = true →
      s.claimSpace n = some (s.base + s.lengthBytes,
        { s with lengthBytes := s.lengthBytes + n }) ∧
      s.lengthBytes + n ≤ s.capacityBytes) ∧
    (∀ (ns : List Nat) (ranges : List (Nat × Nat)) (s2 : CodeSegment),
      claimMany s ns = some (ranges, s2) →
      ranges.Pairwise (fun a b => a.1 + a.2 ≤ b.1)) := by
  have hiff : s.hasSpace n = true ↔ s.lengthBytes + n ≤ s.capacityBytes := by
    unfold CodeSegment.hasSpace
    simp only [Bool.and_eq_true, decide_eq_true_eq]
    omega
  refine ⟨fun _ => hiff, fun hsp => ?_, ?_⟩
  · constructor
    · unfold CodeSegment.claimSpace
      rw [if_pos hsp]
    · exact hiff.mp hsp
  · intro ns ranges s2 h
    exact (claimMany_bounds ns s ranges s2 h).2.2.2

/-- The segment used to witness C6: page size 0x1000, base 0x7000, empty,
capacity 0x2000. -/
def segC6 : CodeSegment := { base := 0x7000, lengthBytes := 0, capacityBytes := 0x2000 }

/-- Witness for C6 on `segC6` with two page-sized claims. -/
theorem c6_bump_allocator_witness :
    (segC6.hasSpace 0x1000 = true ↔ segC6.lengthBytes + 0x1000 ≤ segC6.capacityBytes) ∧
    (segC6.claimSpace 0x1000 = some (segC6.base + segC6.lengthBytes,
        { segC6 with lengthBytes := segC6.lengthBytes + 0x1000 }) ∧
      segC6.lengthBytes + 0x1000 ≤ segC6.capacityBytes) ∧
    ([(0x7000, 0x1000), (0x8000, 0x1000)] : List (Nat × Nat)).Pairwise
      (fun a b => a.1 + a.2 ≤ b.1) :=
  ⟨(c6_bump_allocator segC6 0x1000 0x1000).1 (by decide),
   (c6_bump_allocator segC6 0x1000 0x1000).2.1 (by decide),
   (c6_bump_allocator segC6 0x1000 0x1000).2.2 [0x1000, 0x1000]
     [(0x7000, 0x1000), (0x8000, 0x1000)]
     { base := 0x7000, lengthBytes := 0x2000, capacityBytes := 0x2000 } (by decide)⟩

/-! ## C7: no sentinel entries after `initialize` succeeds -/

/-- C7: for every `CodeBlock` whose `initialize(code)` succeeds, every slot
of its `funcToCodeRange` map holds a valid code-range index — no entry
equals the `BAD_CODE_RANGE` sentinel. -/
theorem c7_initialize_no_sentinel (cb : CodeBlock) (code : Nat) (cb2 : CodeBlock)
    (h : cb.initialize code = some cb2) :
    ∀ r ∈ cb2.funcToCodeRange.funcToCodeRange, r ≠ BAD_CODE_RANGE := by
  unfold CodeBlock.initialize at h
  split_ifs at h with hall
  injection h with h
  subst h
  intro r hr
  unfold FuncToCodeRangeMap.allInitialized at hall
  simpa using List.all_eq_true.mp hall r hr

/-- A code block whose two function slots are filled with the code-range
indices 0 and 1. -/
def cbC7 : CodeBlock :=
  { code := none, codeBase := 0x1000, codeLength := 0x500
    funcToCodeRange := { startFuncIndex := 2, funcToCodeRange := [0, 1] } }

/-- Witness for C7: `cbC7.initialize` succeeds, so its first slot — holding
the code-range index 0 — is not the sentinel. -/
theorem c7_initialize_no_sentinel_witness : (0 : Nat) ≠ BAD_CODE_RANGE :=
  c7_initialize_no_sentinel cbC7 1 { cbC7 with code := some 1 } (by decide) 0 (by decide)

/-! ## C8: static link / unlink round-trip -/

/-- Applying patches preserves the buffer length. -/
theorem applyPatches_length (patches : List (Nat × Nat)) :
    ∀ (buf : List Nat), (applyPatches buf patches).length = buf.length := by
  induction patches with
  | nil => intro buf; rfl
  | cons p rest ih =>
    intro buf
    show (applyPatches (patchCell buf p.1 p.2) rest).length = buf.length
    rw [ih]
    exact List.length_set buf p.1 p.2

/-- A cell at an offset no patch touches is unchanged. -/
theorem applyPatches_getElem?_notMem (patches : List (Nat × Nat)) :
    ∀ (buf : List Nat) (k : Nat), k ∉ patches.map Prod.fst →
      (applyPatches buf patches)[k]? = buf[k]? := by
  induction patches with
  | nil => intro buf k _; rfl
  | cons p rest ih =>
    intro buf k hk
    rw [List.map_cons, List.mem_cons] at hk
    push_neg at hk
    show (applyPatches (patchCell buf p.1 p.2) rest)[k]? = buf[k]?
    rw [ih _ k hk.2]
    exact List.getElem?_set_ne (fun h => hk.1 h.symm)

/-- When the patch sites are distinct, an in-range patched cell ends up
holding its patch value. -/
theorem applyPatches_getElem?_mem (patches : List (Nat × Nat)) :
    ∀ (buf : List Nat) (p : Nat × Nat), (patches.map Prod.fst).Nodup →
      p ∈ patches → p.1 < buf.length →
      (applyPatches buf patches)[p.1]? = some p.2 := by
  induction patches with
  | nil => intro buf p _ hp _; exact absurd hp (List.not_mem_nil p)
  | cons q rest ih =>
    intro buf p hnd hp hin
    rw [List.map_cons, List.nodup_cons] at hnd
    show (applyPatches (patchCell buf q.1 q.2) rest)[p.1]? = some p.2
    rcases List.mem_cons.mp hp with rfl | hrest
    · rw [applyPatches_getElem?_notMem rest _ p.1 hnd.1]
      unfold patchCell
      rw [List.getElem?_set_self']
      rw [List.getElem?_eq_getElem hin]
      rfl
    · exact ih (patchCell buf q.1 q.2) p hnd.2 hrest
        (by rw [patchCell, List.length_set]; exact hin)

/-- Applying one patch list and then another with the same sites restores
the original buffer, provided the sites are distinct and the second list
writes back exactly what the buffer held. -/
theorem patch_roundtrip (ps qs : List (Nat × Nat)) (buf : List Nat)
    (hsites : ps.map Prod.fst = qs.map Prod.fst)
    (hnd : (qs.map Prod.fst).Nodup)
    (horig : ∀ q ∈ qs, buf[q.1]? = some q.2) :
    applyPatches (applyPatches buf ps) qs = buf := by
  apply List.ext_getElem?
  intro k
  by_cases hk : k ∈ qs.map Prod.fst
  · obtain ⟨q, hq, hq1⟩ := List.mem_map.mp hk
    subst hq1
    have horigq := horig q hq
    have hin : q.1 < buf.length := by
      obtain ⟨h, _⟩ := List.getElem?_eq_some.mp horigq
      exact h
    have hin2 : q.1 < (applyPatches buf ps).length := by
      rw [applyPatches_length]
      exact hin
    rw [applyPatches_getElem?_mem qs _ q hnd hq hin2, horigq]
  · rw [applyPatches_getElem?_notMem qs _ k hk,
      applyPatches_getElem?_notMem ps _ k (by rw [hsites]; exact hk)]

/-- The patch list written by `StaticallyLink`. -/
def linkPatchList (base : Nat) (symAddr : Nat → Nat) (linkData : LinkData) :
    List (Nat × Nat) :=
  linkData.internalLinks.map (fun link => (link.patchAtOffset, base + link.targetOffset)) ++
  (linkData.symbolicLinks.map
    (fun sym => sym.2.map (fun offset => (offset, symAddr sym.1)))).flatten

/-- The patch list written by `StaticallyUnlink`. -/
def unlinkPatchList (placeholder : Nat → Nat) (linkData : LinkData) :
    List (Nat × Nat) :=
  linkData.internalLinks.map (fun link => (link.patchAtOffset, link.targetOffset)) ++
  (linkData.symbolicLinks.map
    (fun sym => sym.2.map (fun offset => (offset, placeholder sym.1)))).flatten

/-- Both patch lists walk exactly the `LinkData`'s patch sites, in order. -/
theorem patchList_sites (base : Nat) (symAddr placeholder : Nat → Nat)
    (linkData : LinkData) :
    (linkPatchList base symAddr linkData).map Prod.fst = linkData.patchSites ∧
    (unlinkPatchList placeholder linkData).map Prod.fst = linkData.patchSites := by
  unfold linkPatchList unlinkPatchList LinkData.patchSites
  constructor <;>
    simp [List.map_flatten, List.map_map, Function.comp_def]

/-- C8: for every code buffer and `LinkData` whose patch sites are distinct
and whose pre-link contents are the segment-relative values (`targetOffset`
at internal sites, the symbol placeholder at symbolic sites), applying
`StaticallyLink` and then `StaticallyUnlink` restores the buffer
bit-for-bit. -/
theorem c8_link_unlink_roundtrip (base : Nat) (symAddr placeholder : Nat → Nat)
    (linkData : LinkData) (buf : List Nat)
    (hnd : linkData.patchSites.Nodup)
    (horig1 : ∀ link ∈ linkData.internalLinks,
      buf[link.patchAtOffset]? = some link.targetOffset)
    (horig2 : ∀ sym ∈ linkData.symbolicLinks, ∀ offset ∈ sym.2,
      buf[offset]? = some (placeholder sym.1)) :
    StaticallyUnlink placeholder linkData (StaticallyLink base symAddr linkData buf) =
      buf := by
  have hsites := patchList_sites base symAddr placeholder linkData
  apply patch_roundtrip (linkPatchList base symAddr linkData)
    (unlinkPatchList placeholder linkData) buf
  · rw [hsites.1, hsites.2]
  · rw [hsites.2]
    exact hnd
  · intro q hq
    rcases List.mem_append.mp hq with h | h
    · obtain ⟨link, hlink, rfl⟩ := List.mem_map.mp h
      exact horig1 link hlink
    · obtain ⟨inner, hinner, hqi⟩ := List.mem_flatten.mp h
      obtain ⟨sym, hsym, rfl⟩ := List.mem_map.mp hinner
      obtain ⟨offset, hoffset, rfl⟩ := List.mem_map.mp hqi
      exact horig2 sym hsym offset hoffset

/-- The link data used to witness C8: one internal link patching offset 0
to segment offset 5, and symbol 2 referenced from offset 3. -/
def linkDataC8 : LinkData :=
  { internalLinks := [{ patchAtOffset := 0, targetOffset := 5 }]
    symbolicLinks := [(2, [3])] }

/-- Witness for C8: linking `[5, 11, 12, 102]` at base 0x4000 and unlinking
restores it. -/
theorem c8_link_unlink_roundtrip_witness :
    StaticallyUnlink (fun sym => 100 + sym) linkDataC8
        (StaticallyLink 0x4000 (fun sym => 1000 + sym) linkDataC8 [5, 11, 12, 102]) =
      [5, 11, 12, 102] :=
  c8_link_unlink_roundtrip 0x4000 (fun sym => 1000 + sym) (fun sym => 100 + sym)
    linkDataC8 [5, 11, 12, 102] (by decide) (by decide) (by decide)

/-! ## C9: reverse mapping of jit-entry slot addresses -/

/-- C9: for every function index `i < numFuncs` whose jit-entry slot is
non-null, `funcIndexFromJitEntry(getAddressOfJitEntry(i)) = i`. -/
theorem c9_jit_entry_roundtrip (jt : JumpTables) (i : Nat) (hi : i < jt.numFuncs)
    (hnn : jt.jit.getD i none ≠ none) :
    jt.funcIndexFromJitEntry (jt.getAddressOfJitEntry i) = i := by
  unfold JumpTables.funcIndexFromJitEntry JumpTables.getAddressOfJitEntry
  omega

/-- Witness for C9 on `jtC2`, whose slot 0 is non-null. -/
theorem c9_jit_entry_roundtrip_witness :
    jtC2.funcIndexFromJitEntry (jtC2.getAddressOfJitEntry 0) = 0 :=
  c9_jit_entry_roundtrip jtC2 0 (by decide) (by decide)

/-! ## C10: `setTieringEntry` is a no-op off Tier1 -/

/-- C10: when the compile mode is not `Tier1`, `setTieringEntry` leaves the
whole jump-table state — tiering table and jit-entry table — unchanged. -/
theorem c10_setTieringEntry_noop (jt : JumpTables) (i : Nat) (target : Option Nat)
    (h : jt.mode ≠ CompileMode.Tier1) :
    jt.setTieringEntry i target = jt := by
  unfold JumpTables.setTieringEntry
  rw [if_neg h]

/-- A Tier2-mode jump table for the C10 witness. -/
def jtC10 : JumpTables :=
  { mode := CompileMode.Tier2
    tiering := [none]
    jit := [none]
    jitBaseAddress := 0x200
    numFuncs := 1 }

/-- Witness for C10: a tiering store on a Tier2-mode table changes
nothing. -/
theorem c10_setTieringEntry_noop_witness :
    jtC10.setTieringEntry 0 (some 5) = jtC10 :=
  c10_setTieringEntry_noop jtC10 0 (some 5) (by decide)

end WasmCode
